import Mathlib

/-!
Verification development for the command-invocation pipeline of the
`codex` repository (`codex-rs/core`): slash-command parsing
(`commands/invocation.rs`), argument mapping (`commands/args.rs`), the
command registry and loader (`commands/registry.rs`,
`commands/user/loader.rs`), the debounced file watcher
(`commands/watcher.rs`), and the agent routing / permission layer
(`agents/router.rs`, `agents/permissions.rs`, `agents/toolkit.rs`,
`agents/mod.rs`).

Rust strings are embedded as `List Char`; `HashMap` values are embedded
as association lists with replace-on-insert semantics (extensionally the
same map); `f64` is embedded as `Option ℚ`-style inductive `F64` with an
explicit NaN value; fallible functions return `Except`.
-/

/-- Rust `String` / `&str`, embedded as its character sequence. -/
abbrev Str := List Char

namespace CodexModel

/-! ## Association-list model of `HashMap<String, V>` -/

/-- Rust `HashMap::insert`: the new binding replaces any earlier binding of the
same key (modelled erase-then-cons, extensionally the map semantics). -/
def mapInsert {α : Type} (m : List (Str × α)) (k : Str) (v : α) : List (Str × α) :=
  (k, v) :: m.filter (fun p => decide (p.1 ≠ k))

/-- Rust `HashMap::get`. -/
def mapLookup {α : Type} (m : List (Str × α)) (k : Str) : Option α :=
  match m with
  | [] => none
  | p :: rest => if p.1 = k then some p.2 else mapLookup rest k

/-- Rust `HashMap::contains_key`. -/
def mapContains {α : Type} (m : List (Str × α)) (k : Str) : Bool :=
  (mapLookup m k).isSome

/-- The key set of the map. -/
def mapKeys {α : Type} (m : List (Str × α)) : List Str :=
  m.map (·.1)

theorem mapLookup_insert_self {α : Type} (m : List (Str × α)) (k : Str) (v : α) :
    mapLookup (mapInsert m k v) k = some v := by
  simp [mapInsert, mapLookup]

theorem mapLookup_filter_ne {α : Type} (m : List (Str × α)) (k k' : Str)
    (h : k' ≠ k) :
    mapLookup (m.filter (fun p => decide (p.1 ≠ k))) k' = mapLookup m k' := by
  induction m with
  | nil => rfl
  | cons p rest ih =>
    by_cases hp : p.1 = k
    · rw [List.filter_cons_of_neg (by simpa using hp)]
      rw [ih, mapLookup, if_neg (fun hh : p.1 = k' => h (hh ▸ hp))]
    · rw [List.filter_cons_of_pos (by simpa using hp)]
      rw [mapLookup, mapLookup, ih]

theorem mapLookup_insert_ne {α : Type} (m : List (Str × α)) (k k' : Str) (v : α)
    (h : k' ≠ k) : mapLookup (mapInsert m k v) k' = mapLookup m k' := by
  rw [mapInsert, mapLookup, if_neg (fun hh => h hh.symm)]
  exact mapLookup_filter_ne m k k' h

theorem mem_mapKeys_insert {α : Type} (m : List (Str × α)) (k n : Str) (v : α) :
    n ∈ mapKeys (mapInsert m k v) ↔ n = k ∨ n ∈ mapKeys m := by
  simp only [mapInsert, mapKeys, List.map_cons, List.mem_cons, List.mem_map,
    List.mem_filter]
  constructor
  · rintro (h | ⟨p, ⟨hp, _⟩, hn⟩)
    · exact Or.inl h
    · exact Or.inr ⟨p, hp, hn⟩
  · rintro (h | ⟨p, hp, hn⟩)
    · exact Or.inl h
    · by_cases hk : p.1 = k
      · exact Or.inl (hn ▸ hk)
      · exact Or.inr ⟨p, ⟨hp, by simpa using hk⟩, hn⟩

theorem mapLookup_isSome_iff_mem_keys {α : Type} (m : List (Str × α)) (k : Str) :
    (mapLookup m k).isSome = true ↔ k ∈ mapKeys m := by
  induction m with
  | nil => simp [mapLookup, mapKeys]
  | cons p rest ih =>
    rw [mapLookup]
    by_cases hp : p.1 = k
    · simp only [if_pos hp, Option.isSome_some, mapKeys, List.map_cons,
        List.mem_cons, true_iff]
      exact Or.inl hp.symm
    · rw [if_neg hp]
      simp only [mapKeys, List.map_cons, List.mem_cons]
      rw [ih]
      constructor
      · exact fun h => Or.inr h
      · rintro (h | h)
        · exact absurd h.symm hp
        · exact h

/-! ## `commands/invocation.rs` — slash-command parsing

Rust's Unicode `char::is_alphanumeric` / `char::is_whitespace` /
`str::trim` are embedded with Lean's `Char.isAlphanum` /
`Char.isWhitespace` (they agree on the ASCII inputs the claims are
about); `str::find` returns the position of the first occurrence,
embedded as `List.findIdx?` over characters. -/

/-- Rust `str::trim`. -/
def trimStr (s : Str) : Str :=
  ((s.dropWhile Char.isWhitespace).reverse.dropWhile Char.isWhitespace).reverse

/-- Errors of `InvocationParser::parse` (the `bail!` messages). -/
inductive ParseError where
  | emptyCommand
  | missingSlash
  | invalidCommandName (name : Str)
  | unclosedQuotes
  | trailingEscape
deriving DecidableEq, Repr

/-- Rust `CommandInvocation` (`args` is a `HashMap<String, String>`, embedded
as an association list with replace-on-insert). -/
structure CommandInvocation where
  command_name : Str
  args : List (Str × Str)
  raw_args : List Str
deriving DecidableEq, Repr

namespace InvocationParser

/-- Rust `InvocationParser::is_valid_command_name`. -/
def isValidCommandName (name : Str) : Bool :=
  !name.isEmpty && name.all (fun c => c.isAlphanum || c = '-' || c = '_')

/-- Rust `InvocationParser::is_valid_arg_name`. -/
def isValidArgName (name : Str) : Bool :=
  !name.isEmpty && name.all (fun c => c.isAlphanum || c = '-' || c = '_')

/-- The `while` loop of `InvocationParser::tokenize`: state is the
remaining input, the token being built, the `in_quotes` and
`escape_next` flags, and the tokens already emitted. -/
def tokenizeGo (chars : List Char) (current : Str) (inQuotes escapeNext : Bool)
    (tokens : List Str) : Except ParseError (List Str) :=
  match chars with
  | [] =>
    if inQuotes then .error .unclosedQuotes
    else if escapeNext then .error .trailingEscape
    else if current.isEmpty then .ok tokens else .ok (tokens ++ [current])
  | ch :: rest =>
    if escapeNext then tokenizeGo rest (current ++ [ch]) inQuotes false tokens
    else if ch = '\\' then tokenizeGo rest current inQuotes true tokens
    else if ch = '"' then tokenizeGo rest current (!inQuotes) false tokens
    else if ch.isWhitespace && !inQuotes then
      if current.isEmpty then tokenizeGo rest current inQuotes false tokens
      else tokenizeGo rest [] inQuotes false (tokens ++ [current])
    else tokenizeGo rest (current ++ [ch]) inQuotes false tokens

/-- Rust `InvocationParser::tokenize`. -/
def tokenize (input : Str) : Except ParseError (List Str) :=
  tokenizeGo input [] false false []

/-- Rust `InvocationParser::parse_key_value`: split at the first `'='`; the
part left of it (trimmed) must be a nonempty valid argument name. -/
def parseKeyValue (token : Str) : Option (Str × Str) :=
  match token.findIdx? (· = '=') with
  | some eqPos =>
    let key := trimStr (token.take eqPos)
    let value := trimStr (token.drop (eqPos + 1))
    if !key.isEmpty && isValidArgName key then some (key, value) else none
  | none => none

/-- The argument-collection loop of `InvocationParser::parse`: each
token either extends the named-argument map or is appended to
`raw_args`. -/
def collectArgs (tokens : List Str) : List (Str × Str) × List Str :=
  tokens.foldl
    (fun acc token =>
      match parseKeyValue token with
      | some kv => (CodexModel.mapInsert acc.1 kv.1 kv.2, acc.2)
      | none => (acc.1, acc.2 ++ [token]))
    ([], [])

/-- Rust `InvocationParser::parse`. -/
def parse (input : Str) : Except ParseError CommandInvocation :=
  let trimmed := trimStr input
  if trimmed.head? ≠ some '/' then .error .missingSlash
  else if trimmed.length = 1 then .error .emptyCommand
  else
    match tokenize (trimmed.drop 1) with
    | .error e => .error e
    | .ok [] => .error .emptyCommand
    | .ok (name :: rest) =>
      if ¬ isValidCommandName name then .error (.invalidCommandName name)
      else
        let ar := collectArgs rest
        .ok ⟨name, ar.1, ar.2⟩

end InvocationParser

/-! ## `commands/parser.rs` — command metadata -/

/-- Rust `ArgType`. -/
inductive ArgType where
  | string
  | number
  | boolean
  | file
deriving DecidableEq, Repr

/-- Rust `ArgDefinition`. -/
structure ArgDefinition where
  name : Str
  arg_type : ArgType
  required : Bool
  description : Str
  default : Option Str
deriving DecidableEq, Repr

/-- Rust `CommandPermissions`. -/
structure CommandPermissions where
  read_files : Bool
  write_files : Bool
  execute_shell : Bool
deriving DecidableEq, Repr

/-- Rust `CommandMetadata`. -/
structure CommandMetadata where
  name : Str
  description : Str
  category : Str
  permissions : CommandPermissions
  args : List ArgDefinition
  agent : Bool
  agent_id : Option Str
  activation_hints : List Str
deriving DecidableEq, Repr

/-! ## `commands/args.rs` — argument mapping -/

/-- The `bail!` errors of `ArgumentMapper::map_arguments`, carrying the
offending argument name and the command name embedded in the message. -/
inductive MapError where
  | unknownArgument (key : Str) (command : Str)
  | missingRequired (arg : Str) (command : Str)
deriving DecidableEq, Repr

namespace ArgumentMapper

/-- Step 1 of `ArgumentMapper::map_arguments`: positional tokens are
assigned to the declared parameters in declaration order; a token with
no parameter at its index is dropped (warned about, non-fatal). -/
def mapPositional (rawArgs : List Str) (defs : List ArgDefinition) :
    List (Str × Str) :=
  rawArgs.enum.foldl
    (fun result p =>
      match defs.get? p.1 with
      | some argDef => CodexModel.mapInsert result argDef.name p.2
      | none => result)
    []

/-- One iteration of step 2 of `ArgumentMapper::map_arguments`: a named
argument whose name is not declared is a hard `UnknownArgument` error;
otherwise it is inserted, overriding any positional assignment. -/
def namedStep (md : CommandMetadata) (acc : List (Str × Str)) (kv : Str × Str) :
    Except MapError (List (Str × Str)) :=
  if md.args.any (fun a => a.name = kv.1) then
    Except.ok (CodexModel.mapInsert acc kv.1 kv.2)
  else
    Except.error (MapError.unknownArgument kv.1 md.name)

/-- One iteration of step 3 of `ArgumentMapper::map_arguments`: a
parameter that is still unset and has a declared default receives it. -/
def defaultStep (acc : List (Str × Str)) (argDef : ArgDefinition) :
    List (Str × Str) :=
  match argDef.default with
  | some d =>
    if mapContains acc argDef.name then acc
    else CodexModel.mapInsert acc argDef.name d
  | none => acc

/-- Steps 2–4 of `ArgumentMapper::map_arguments`: named arguments are
applied over the positional assignment (unknown names are a hard
error), defaults fill still-missing parameters, and every `required`
parameter must be present (the loop bails at the first one that is
not). -/
def mapArguments (inv : CommandInvocation) (md : CommandMetadata) :
    Except MapError (List (Str × Str)) :=
  let result := mapPositional inv.raw_args md.args
  match inv.args.foldlM (namedStep md) result with
  | .error e => .error e
  | .ok result =>
    let result := md.args.foldl defaultStep result
    match md.args.find? (fun a => a.required && !(mapContains result a.name)) with
    | some argDef => .error (MapError.missingRequired argDef.name md.name)
    | none => .ok result

end ArgumentMapper

/-! ## `agents/mod.rs` — f64 scores and activation clamping

`f64` is embedded as a rational together with an explicit NaN value
(the claims under verification involve no rounding, only comparisons
and clamping, on which `ℚ` and the binary64 finite values agree). -/

/-- An `f64` value: NaN or a (finite) numeric value. -/
inductive F64 where
  | nan
  | fin (x : ℚ)
deriving DecidableEq, Repr

/-- Rust `f64::clamp(lo, hi)`: comparisons with NaN are false, so NaN is
returned unchanged. -/
def F64.clamp (x : F64) (lo hi : ℚ) : F64 :=
  match x with
  | nan => nan
  | fin q => fin (if q < lo then lo else if q > hi then hi else q)

/-- Rust `PartialOrd::partial_cmp` on `f64`: `None` whenever NaN is involved. -/
def F64.partialCmp (a b : F64) : Option Ordering :=
  match a, b with
  | fin x, fin y => some (if x < y then .lt else if x = y then .eq else .gt)
  | _, _ => none

/-- Rust `a >= b` on `f64`: false whenever NaN is involved. -/
def F64.ge (a b : F64) : Bool :=
  match a, b with
  | fin x, fin y => decide (y ≤ x)
  | _, _ => false

/-- Whether an `f64` is a number (not NaN). -/
def F64.isFin : F64 → Prop
  | nan => False
  | fin _ => True

/-- The numeric value of an `f64` (NaN mapped to an arbitrary value;
only used under an `isFin` hypothesis). -/
def F64.qval : F64 → ℚ
  | nan => 0
  | fin q => q

/-- Rust `ActivationScore` — a tuple struct with a public `f64` field. -/
structure ActivationScore where
  val : F64
deriving DecidableEq, Repr

/-- Rust `ActivationScore::new`: clamps to `[0.0, 1.0]` via `f64::clamp`. -/
def ActivationScore.new (score : F64) : ActivationScore :=
  ⟨score.clamp 0 1⟩

/-- Rust `ExecutionMode`. -/
inductive ExecutionMode where
  | interactive
  | automated
deriving DecidableEq, Repr

/-- Rust `GitContext`. -/
structure GitContext where
  diff : Str
  branch : Str
  changed_files : List Str
deriving DecidableEq, Repr

/-- Rust `TaskContext`. -/
structure TaskContext where
  file_paths : List Str
  file_contents : Option (List (Str × Str))
  git_context : Option GitContext
  execution_mode : ExecutionMode
  user_intent : Str

/-- An `Agent` trait object, restricted to the members the router
uses: its id and its `can_handle` scoring function. -/
structure Agent where
  id : Str
  canHandle : TaskContext → ActivationScore

/-! ## `agents/router.rs` — agent selection -/

/-- Rust `AgentRouter`: the `HashMap`'s values in iteration order, plus the
activation threshold (an `f64`, default `0.6`). -/
structure AgentRouter where
  agents : List Agent
  activation_threshold : F64

namespace AgentRouter

/-- Rust `AgentRouter::new`. -/
def new : AgentRouter :=
  ⟨[], .fin (6 / 10)⟩

/-- The comparator `|(_, a), (_, b)| b.partial_cmp(a).unwrap_or(Equal)`
passed to `sort_by` in `select_agent` (descending by score, NaN
comparisons falling back to `Equal`). -/
def scoreCmp (x y : Agent × F64) : Ordering :=
  (F64.partialCmp y.2 x.2).getD .eq

/-- Insertion of one element into a run already sorted by comparator
`c`, placing it after comparator-equal elements (stable). -/
def insertByCmp {α : Type} (c : α → α → Ordering) (x : α) : List α → List α
  | [] => [x]
  | y :: ys => if c x y = .lt then x :: y :: ys else y :: insertByCmp c x ys

/-- Rust `Vec::sort_by` with comparator `c`: a stable comparator sort. -/
def sortByCmp {α : Type} (c : α → α → Ordering) (l : List α) : List α :=
  l.foldl (fun acc x => insertByCmp c x acc) []

/-- Rust `AgentRouter::select_agent`: score every agent, sort descending,
and return the top agent if its score is `>=` the threshold. -/
def selectAgent (r : AgentRouter) (context : TaskContext) : Option Agent :=
  let scores := r.agents.map (fun agent => (agent, (agent.canHandle context).val))
  let sorted := sortByCmp scoreCmp scores
  match sorted.head? with
  | some p => if F64.ge p.2 r.activation_threshold then some p.1 else none
  | none => none

/-- Rust `AgentRouter::set_activation_threshold`: clamps to `[0, 1]`. -/
def setActivationThreshold (r : AgentRouter) (threshold : F64) : AgentRouter :=
  { r with activation_threshold := threshold.clamp 0 1 }

end AgentRouter

/-! ## `agents/permissions.rs` — file-access policy -/

/-- Rust `str::is_prefix` check: Lean's `List.IsPrefix` decided positionally. -/
def strStartsWith (s pre : Str) : Bool :=
  match s, pre with
  | _, [] => true
  | [], _ :: _ => false
  | c :: cs, p :: ps => c = p && strStartsWith cs ps

/-- Rust `str::ends_with`. -/
def strEndsWith (s suf : Str) : Bool :=
  strStartsWith s.reverse suf.reverse

/-- Position of the first occurrence of substring `pat` in `s`
(`str::find` for substring patterns). -/
def findSub (s pat : Str) : Option Nat :=
  match s with
  | [] => if pat.isEmpty then some 0 else none
  | _ :: rest =>
    if strStartsWith s pat then some 0
    else (findSub rest pat).map (· + 1)

/-- Rust `str::contains` for substring patterns. -/
def strContainsSub (s pat : Str) : Bool :=
  (findSub s pat).isSome

/-- Rust `str::split_once`: splits around the first occurrence of `pat`. -/
def splitOnce (s pat : Str) : Option (Str × Str) :=
  (findSub s pat).map (fun i => (s.take i, s.drop (i + pat.length)))

/-- Rust `str::strip_prefix`. -/
def stripPre (s pre : Str) : Option Str :=
  if strStartsWith s pre then some (s.drop pre.length) else none

/-- Rust `str::trim_start_matches` for a single-character pattern. -/
def trimStartMatchesChar (s : Str) (c : Char) : Str :=
  s.dropWhile (· = c)

/-- One fuelled pass of `str::trim_end_matches`: strips the suffix `pat`
as long as it is present (the fuel `s.length` always suffices for a
nonempty pattern). -/
def trimEndMatchesF : Nat → Str → Str → Str
  | 0, s, _ => s
  | n + 1, s, pat =>
    if !pat.isEmpty && strEndsWith s pat then
      trimEndMatchesF n (s.take (s.length - pat.length)) pat
    else s

/-- Rust `str::trim_end_matches`. -/
def trimEndMatches (s pat : Str) : Str :=
  trimEndMatchesF s.length s pat

/-- Rust `FileAccessPolicy`. -/
inductive FileAccessPolicy where
  | noAccess
  | readOnly
  | readWrite (allow_patterns : List Str) (deny_patterns : List Str)
deriving DecidableEq, Repr

/-- Rust `AgentPermissions`. -/
structure AgentPermissions where
  file_access : FileAccessPolicy
  shell_execution : Bool
  network_access : Bool
  allowed_tools : List Str
  max_iterations : Nat
  can_delegate : Bool
deriving DecidableEq, Repr

namespace AgentPermissions

/-- Rust `AgentPermissions::default()`. -/
def default : AgentPermissions :=
  ⟨.noAccess, false, false, [], 5, false⟩

/-- Rust `AgentPermissions::matches` — the glob subset implemented in the
source (recursive `**` patterns, `*.ext` patterns, and a contains
fallback). -/
def globMatches (path : Str) (pattern : Str) : Bool :=
  let path_str := path
  if pattern = "**".toList ∨ pattern = "*".toList then true
  else
    if strContainsSub pattern "**".toList then
      match splitOnce pattern "**".toList with
      | some pre_suf =>
        let pre := pre_suf.1
        let suf := pre_suf.2
        if !pre.isEmpty && !strStartsWith path_str pre then false
        else
          if strStartsWith suf "/*".toList then
            match stripPre suf "/*.".toList with
            | some ext => strEndsWith path_str ('.' :: ext)
            | none => strContainsSub path_str pattern
          else if strStartsWith suf "/".toList then
            let dir := trimEndMatches (trimStartMatchesChar suf '/') "/**".toList
            strContainsSub path_str ('/' :: dir ++ ['/']) ||
              strContainsSub path_str ('\\' :: dir ++ ['\\']) ||
              strContainsSub path_str ('/' :: dir) ||
              strContainsSub path_str ('\\' :: dir)
          else strContainsSub path_str pattern
      | none => strContainsSub path_str pattern
    else if strStartsWith pattern "*.".toList then
      let ext := (stripPre pattern "*.".toList).getD []
      strEndsWith path_str ('.' :: ext)
    else strContainsSub path_str pattern

/-- Rust `AgentPermissions::matches_patterns` — currently a stub in the
source: "For now, allow all reads if policy allows reading". -/
def matchesPatterns (_perms : AgentPermissions) (_path : Str) : Bool :=
  true

/-- Rust `AgentPermissions::can_read_file`. -/
def canReadFile (perms : AgentPermissions) (path : Str) : Bool :=
  match perms.file_access with
  | .noAccess => false
  | .readOnly => matchesPatterns perms path
  | .readWrite _ _ => matchesPatterns perms path

/-- Rust `AgentPermissions::can_write_file`: deny patterns are checked
first, then at least one allow pattern must match. -/
def canWriteFile (perms : AgentPermissions) (path : Str) : Bool :=
  match perms.file_access with
  | .readWrite allow_patterns deny_patterns =>
    if deny_patterns.any (fun p => globMatches path p) then false
    else allow_patterns.any (fun p => globMatches path p)
  | _ => false

end AgentPermissions

/-! ## `agents/toolkit.rs` — permission-gated file operations

The filesystem is embedded as a path→content map threaded through each
operation, so that "no modification before the check" is the statement
that a denied call returns the filesystem unchanged. -/

/-- A filesystem snapshot. -/
abbrev FileSystem := List (Str × Str)

/-- The `bail!`/IO errors of the toolkit operations; the permission
errors carry the offending path embedded in the message. -/
inductive ToolError where
  | permissionDeniedRead (path : Str)
  | permissionDeniedWrite (path : Str)
  | ioError (path : Str)
deriving DecidableEq, Repr

/-- Rust `AgentToolkit` (the `agent_id` and `workspace_root` fields play no
role in the file-permission claims but are kept for fidelity). -/
structure AgentToolkit where
  agent_id : Str
  permissions : AgentPermissions
  workspace_root : Str

namespace AgentToolkit

/-- Rust `AgentToolkit::read_file`: the permission check precedes the read. -/
def readFile (tk : AgentToolkit) (path : Str) (fs : FileSystem) :
    Except ToolError Str × FileSystem :=
  if !(AgentPermissions.canReadFile tk.permissions path) then
    (.error (.permissionDeniedRead path), fs)
  else
    match mapLookup fs path with
    | some content => (.ok content, fs)
    | none => (.error (.ioError path), fs)

/-- Rust `AgentToolkit::write_file`: the permission check precedes the
write, so a denied call leaves the filesystem untouched. -/
def writeFile (tk : AgentToolkit) (path content : Str) (fs : FileSystem) :
    Except ToolError Unit × FileSystem :=
  if !(AgentPermissions.canWriteFile tk.permissions path) then
    (.error (.permissionDeniedWrite path), fs)
  else
    (.ok (), mapInsert fs path content)

end AgentToolkit

/-! ## `commands/user/loader.rs` and `commands/registry.rs`

A commands-directory state is embedded as the list of entries
`read_dir` yields: each with the extension of its path, whether it is a
file, and its content.  `CommandParser::parse`
(frontmatter split + YAML deserialization + validation) is taken as a
parameter `parseCmd`; the loader and registry claims hold for every
parser, so nothing about the YAML grammar is assumed. -/

/-- One directory entry as seen by the loader's `read_dir` loop. -/
structure FsEntry where
  ext : Option Str
  isFile : Bool
  content : Str

/-- Rust `ParsedCommand` (output of `CommandParser::parse`). -/
structure ParsedCommand where
  metadata : CommandMetadata
  template : Str
deriving DecidableEq, Repr

/-- Rust `UserCommand` (what the loader stores; `Command::name()` is
`metadata.name`). -/
structure UserCommand where
  metadata : CommandMetadata
  template : Str
deriving DecidableEq, Repr

namespace UserCommandLoader

/-- Rust `UserCommandLoader::load_all`: the `read_dir` loop.  Non-`.md`
entries and non-files are skipped; a file whose parse fails is logged
and skipped (`continue`), never aborting the scan. -/
def loadAll (parseCmd : Str → Except Str ParsedCommand) (dir : List FsEntry) :
    List UserCommand :=
  dir.foldl
    (fun commands entry =>
      if entry.ext ≠ some "md".toList then commands
      else if !entry.isFile then commands
      else
        match parseCmd entry.content with
        | .ok parsed => commands ++ [⟨parsed.metadata, parsed.template⟩]
        | .error _ => commands)
    []

end UserCommandLoader

namespace CommandRegistry

/-- Rust `CommandRegistry::reload`: re-scan the directory, then—under the
single write-lock acquisition—`clear()` the map (the old state is
discarded) and insert every loaded command keyed by its name. -/
def reload (_old : List (Str × UserCommand))
    (parseCmd : Str → Except Str ParsedCommand) (dir : List FsEntry) :
    List (Str × UserCommand) :=
  (UserCommandLoader.loadAll parseCmd dir).foldl
    (fun map cmd => mapInsert map cmd.metadata.name cmd) []

end CommandRegistry

/-! ## `commands/watcher.rs` — debounced reload loop

The background task of `CommandWatcher::handle_events` is embedded as a
state machine over its `pending_reloads: HashMap<PathBuf, Instant>` map
and a counter of issued `registry.reload()` calls; inputs are the
filesystem events delivered by the watcher callback and the ticks of
the 50ms `reload_timer`, each carrying the monotone time (in ms) at
which it is processed.  `Instant` arithmetic (`duration_since`) is `Nat`
subtraction: on the monotone traces considered, `now` is never earlier
than a stored stamp. -/

/-- Rust `DEBOUNCE_MS`. -/
def debounceMs : Nat := 300

/-- A filesystem path as the watcher inspects it: `Path::extension()`
plus an identity for map keying. -/
structure WPath where
  stem : Str
  ext : Option Str
deriving DecidableEq, Repr

/-- The `notify` event kinds distinguished by the filter. -/
inductive WEventKind where
  | create
  | modify
  | remove
  | access
  | other
deriving DecidableEq, Repr

/-- A `notify::Event`. -/
structure WEvent where
  kind : WEventKind
  paths : List WPath
deriving DecidableEq, Repr

namespace CommandWatcher

/-- Rust `CommandWatcher::is_command_file`. -/
def isCommandFile (p : WPath) : Bool :=
  p.ext = some "md".toList

/-- Rust `CommandWatcher::is_relevant_event`: only `Create`/`Modify`/`Remove`
events with at least one `.md` path pass the callback filter. -/
def isRelevantEvent (e : WEvent) : Bool :=
  (match e.kind with
   | .create | .modify | .remove => true
   | _ => false)
    && e.paths.any isCommandFile

/-- Rust `pending_reloads.insert(path, now)` (replace-on-insert). -/
def pendInsert (m : List (WPath × Nat)) (k : WPath) (v : Nat) :
    List (WPath × Nat) :=
  (k, v) :: m.filter (fun p => decide (p.1 ≠ k))

/-- State of the debounce loop: the pending map and the number of
`registry.reload()` calls issued so far. -/
structure WatcherState where
  pending : List (WPath × Nat)
  reloads : Nat
deriving DecidableEq, Repr

/-- The `event_rx.recv()` select arm: each `.md` path of the event is
stamped/refreshed with "now". -/
def stepEvent (s : WatcherState) (e : WEvent) (now : Nat) : WatcherState :=
  { s with
    pending :=
      e.paths.foldl
        (fun m path => if isCommandFile path then pendInsert m path now else m)
        s.pending }

/-- The `reload_timer.tick()` select arm: entries whose age is `>=` the
debounce window are removed; if any was removed, exactly one
`registry.reload()` is issued for the sweep. -/
def stepTick (s : WatcherState) (now : Nat) : WatcherState :=
  let shouldReload := s.pending.any (fun pt => decide (debounceMs ≤ now - pt.2))
  { pending := s.pending.filter (fun pt => decide (¬ (debounceMs ≤ now - pt.2))),
    reloads := s.reloads + (if shouldReload then 1 else 0) }

/-- One input of the debounce loop, carrying its processing time. -/
inductive WInput where
  | event (e : WEvent) (now : Nat)
  | tick (now : Nat)
deriving DecidableEq, Repr

/-- One iteration of the `select!` loop (the watcher callback forwards
only relevant events into the channel). -/
def watcherStep (s : WatcherState) (i : WInput) : WatcherState :=
  match i with
  | .event e now => if isRelevantEvent e then stepEvent s e now else s
  | .tick now => stepTick s now

/-- Running the debounce loop from its initial state (empty pending
map, no reloads issued). -/
def watcherRun (inputs : List WInput) : WatcherState :=
  inputs.foldl watcherStep ⟨[], 0⟩

end CommandWatcher

end CodexModel

open CodexModel CodexModel.ArgumentMapper CodexModel.CommandWatcher

/-! ## Theorems -/

/-- C9: for every real (non-NaN) `f64` input `x`, the value stored by
`ActivationScore::new(x)` lies in the closed interval `[0, 1]`, and
equals `x` whenever `x` is already in that interval (negative inputs and
inputs above 1 included, since `x` ranges over all of `ℚ`). -/
theorem activation_score_new_in_range (q : ℚ) :
    (∃ r : ℚ, (ActivationScore.new (F64.fin q)).val = F64.fin r ∧ 0 ≤ r ∧ r ≤ 1) ∧
    (0 ≤ q → q ≤ 1 → ActivationScore.new (F64.fin q) = ⟨F64.fin q⟩) := by
  constructor
  · refine ⟨if q < 0 then 0 else if q > 1 then 1 else q, rfl, ?_, ?_⟩ <;>
      split_ifs <;> linarith
  · intro h0 h1
    simp only [ActivationScore.new, F64.clamp, not_lt.mpr h0, if_false,
      gt_iff_lt, not_lt.mpr h1]

/-- C9 witness: `ActivationScore::new(1/2)` stores exactly `1/2`. -/
theorem activation_score_new_in_range_witness :
    ActivationScore.new (F64.fin (1 / 2)) = ⟨F64.fin (1 / 2)⟩ :=
  (activation_score_new_in_range (1 / 2)).2 (by norm_num) (by norm_num)

/-- C10: `ActivationScore::new` does not sanitize NaN — the stored value
for a NaN input is NaN, which lies outside `[0, 1]`; scores outside
`[0, 1]` (NaN included) can also be constructed directly through the
public field; and the router's sort comparator maps every comparison
involving NaN to `Equal` instead of rejecting it. -/
theorem activation_score_nan_unsanitized :
    ActivationScore.new F64.nan = ⟨F64.nan⟩ ∧
    (¬ ∃ r : ℚ, (ActivationScore.new F64.nan).val = F64.fin r ∧ 0 ≤ r ∧ r ≤ 1) ∧
    (ActivationScore.mk F64.nan).val = F64.nan ∧
    (ActivationScore.mk (F64.fin 2)).val = F64.fin 2 ∧
    AgentRouter.scoreCmp (⟨"a".toList, fun _ => ⟨F64.fin 0⟩⟩, F64.nan)
      (⟨"b".toList, fun _ => ⟨F64.fin 0⟩⟩, F64.fin 1) = Ordering.eq ∧
    AgentRouter.scoreCmp (⟨"a".toList, fun _ => ⟨F64.fin 0⟩⟩, F64.fin 0)
      (⟨"b".toList, fun _ => ⟨F64.fin 0⟩⟩, F64.nan) = Ordering.eq := by
  refine ⟨rfl, ?_, rfl, rfl, rfl, rfl⟩
  rintro ⟨r, hr, -, -⟩
  exact F64.noConfusion hr

/-- C7: `write_file` passes the permission check exactly when the policy
is `ReadWrite`, no deny pattern matches the path (deny checked before
allow), and some allow pattern matches; under `ReadOnly` or `NoAccess`
every `write_file` call fails with a permission-denied error naming the
path and leaves the filesystem untouched (the check precedes the
write). -/
theorem write_file_permission_spec (perms : AgentPermissions) (path : Str) :
    (AgentPermissions.canWriteFile perms path = true ↔
      ∃ ap dp, perms.file_access = FileAccessPolicy.readWrite ap dp ∧
        (∀ p ∈ dp, AgentPermissions.globMatches path p = false) ∧
        (∃ p ∈ ap, AgentPermissions.globMatches path p = true)) ∧
    (∀ tk : AgentToolkit, ∀ content fs, tk.permissions = perms →
      (perms.file_access = FileAccessPolicy.readOnly ∨
        perms.file_access = FileAccessPolicy.noAccess) →
      AgentToolkit.writeFile tk path content fs =
        (Except.error (ToolError.permissionDeniedWrite path), fs)) := by
  constructor
  · cases hfa : perms.file_access with
    | noAccess =>
      simp only [AgentPermissions.canWriteFile, hfa]
      constructor
      · intro h; exact absurd h (by simp)
      · rintro ⟨ap, dp, h, -⟩; exact FileAccessPolicy.noConfusion h
    | readOnly =>
      simp only [AgentPermissions.canWriteFile, hfa]
      constructor
      · intro h; exact absurd h (by simp)
      · rintro ⟨ap, dp, h, -⟩; exact FileAccessPolicy.noConfusion h
    | readWrite ap dp =>
      simp only [AgentPermissions.canWriteFile, hfa]
      constructor
      · intro h
        refine ⟨ap, dp, rfl, ?_, ?_⟩
        · intro p hp
          by_contra hc
          rw [if_pos (List.any_eq_true.mpr ⟨p, hp, by
            cases hm : AgentPermissions.globMatches path p with
            | true => rfl
            | false => exact absurd hm hc⟩)] at h
          exact Bool.false_ne_true h
        · by_cases hd : dp.any (fun p => AgentPermissions.globMatches path p)
          · rw [if_pos hd] at h; exact absurd h Bool.false_ne_true
          · rw [if_neg hd] at h
            obtain ⟨p, hp, hm⟩ := List.any_eq_true.mp h
            exact ⟨p, hp, hm⟩
      · rintro ⟨ap', dp', heq, hdeny, p, hp, hm⟩
        obtain ⟨rfl, rfl⟩ : ap' = ap ∧ dp' = dp := by
          cases heq; exact ⟨rfl, rfl⟩
        rw [if_neg (by
          intro hany
          obtain ⟨q, hq, hqm⟩ := List.any_eq_true.mp hany
          rw [hdeny q hq] at hqm
          exact Bool.false_ne_true hqm)]
        exact List.any_eq_true.mpr ⟨p, hp, hm⟩
  · intro tk content fs htk hpol
    have hcw : AgentPermissions.canWriteFile tk.permissions path = false := by
      rw [htk]
      rcases hpol with h | h <;>
        simp only [AgentPermissions.canWriteFile, h]
    simp only [AgentToolkit.writeFile, hcw, Bool.not_false, if_pos]

/-- C7 witness: under a `ReadOnly` policy a concrete `write_file` call
is denied, naming the path, with the filesystem unchanged. -/
theorem write_file_permission_spec_witness :
    AgentToolkit.writeFile
      ⟨"agent".toList, ⟨FileAccessPolicy.readOnly, false, false, [], 5, false⟩,
        "/w".toList⟩
      "test.rs".toList "content".toList [] =
      (Except.error (ToolError.permissionDeniedWrite "test.rs".toList), []) :=
  (write_file_permission_spec
    ⟨FileAccessPolicy.readOnly, false, false, [], 5, false⟩ "test.rs".toList).2
    _ "content".toList [] rfl (Or.inl rfl)

/-- C8 counterexample: a `ReadWrite` policy whose patterns exclude a
path (its deny list matches everything, its allow list is empty, so the
very same path is denied for writing) still allows *reading* that path:
`matches_patterns` is a stub that allows every read.  The claim that
such a policy "denies reading that path" is false. -/
theorem read_file_pattern_counterexample :
    AgentPermissions.canWriteFile
      ⟨FileAccessPolicy.readWrite [] ["**".toList], false, false, [], 5, false⟩
      "src/main.rs".toList = false ∧
    AgentPermissions.canReadFile
      ⟨FileAccessPolicy.readWrite [] ["**".toList], false, false, [], 5, false⟩
      "src/main.rs".toList = true :=
  ⟨rfl, rfl⟩

/-- C8 (amended): `read_file` passes the permission check iff the policy
is not `NoAccess`.  Under `ReadOnly` and `ReadWrite` the code consults
`matches_patterns`, which is currently a stub returning `true` for every
path, so a `ReadWrite` policy's patterns never deny a read; under
`NoAccess` every `read_file` call fails with a permission-denied error
naming the path, with no read occurring before the check. -/
theorem read_file_permission_spec (perms : AgentPermissions) (path : Str) :
    (AgentPermissions.canReadFile perms path = true ↔
      perms.file_access ≠ FileAccessPolicy.noAccess) ∧
    (∀ tk : AgentToolkit, ∀ fs, tk.permissions = perms →
      perms.file_access = FileAccessPolicy.noAccess →
      AgentToolkit.readFile tk path fs =
        (Except.error (ToolError.permissionDeniedRead path), fs)) := by
  constructor
  · cases hfa : perms.file_access with
    | noAccess =>
      simp [AgentPermissions.canReadFile, hfa]
    | readOnly =>
      simp [AgentPermissions.canReadFile, AgentPermissions.matchesPatterns, hfa]
    | readWrite ap dp =>
      simp [AgentPermissions.canReadFile, AgentPermissions.matchesPatterns, hfa]
  · intro tk fs htk hpol
    have hcr : AgentPermissions.canReadFile tk.permissions path = false := by
      rw [htk]
      simp only [AgentPermissions.canReadFile, hpol]
    simp only [AgentToolkit.readFile, hcr, Bool.not_false, if_pos]

theorem mapContains_insert {α : Type} (m : List (Str × α)) (k n : Str) (v : α) :
    mapContains (mapInsert m k v) n = true ↔ n = k ∨ mapContains m n = true := by
  simp only [mapContains, mapLookup_isSome_iff_mem_keys]
  exact mem_mapKeys_insert m k n v

theorem applyNamed_ok_of_mem_step {α : Type} (f : List (Str × Str) → Str × Str → Except α (List (Str × Str)))
    (kv : Str × Str) (args : List (Str × Str)) (acc res : List (Str × Str))
    (h : List.foldlM f acc (kv :: args) = Except.ok res) :
    ∃ acc', f acc kv = Except.ok acc' ∧ List.foldlM f acc' args = Except.ok res := by
  rw [List.foldlM_cons] at h
  cases hf : f acc kv with
  | ok acc' =>
    rw [hf] at h
    exact ⟨acc', rfl, h⟩
  | error e =>
    rw [hf] at h
    exact Except.noConfusion h

theorem applyNamed_lookup_preserved (md : CommandMetadata) (args : List (Str × Str)) :
    ∀ (acc res : List (Str × Str)) (k : Str),
    k ∉ args.map Prod.fst →
    List.foldlM (namedStep md) acc args = Except.ok res →
    mapLookup res k = mapLookup acc k := by
  induction args with
  | nil =>
    intro acc res k _ h
    simp only [List.foldlM_nil] at h
    cases h
    rfl
  | cons kv tail ih =>
    intro acc res k hk h
    obtain ⟨acc', hstep, hrest⟩ := applyNamed_ok_of_mem_step _ kv tail acc res h
    simp only [List.map_cons, List.mem_cons, not_or] at hk
    have hacc' : acc' = mapInsert acc kv.1 kv.2 := by
      by_cases hc : md.args.any (fun a => a.name = kv.1)
      · rw [namedStep, if_pos hc] at hstep
        cases hstep
        rfl
      · rw [namedStep, if_neg hc] at hstep
        exact absurd hstep (by simp)
    rw [ih acc' res k hk.2 hrest, hacc',
      mapLookup_insert_ne acc kv.1 k kv.2 hk.1]

theorem applyNamed_lookup_named (md : CommandMetadata) (args : List (Str × Str)) :
    ∀ (acc res : List (Str × Str)),
    (args.map Prod.fst).Nodup →
    List.foldlM (namedStep md) acc args = Except.ok res →
    ∀ k v, (k, v) ∈ args → mapLookup res k = some v := by
  induction args with
  | nil =>
    intro acc res _ _ k v hmem
    exact absurd hmem (List.not_mem_nil _)
  | cons kv tail ih =>
    intro acc res hnd h k v hmem
    obtain ⟨acc', hstep, hrest⟩ := applyNamed_ok_of_mem_step _ kv tail acc res h
    have hacc' : acc' = mapInsert acc kv.1 kv.2 := by
      by_cases hc : md.args.any (fun a => a.name = kv.1)
      · rw [namedStep, if_pos hc] at hstep
        cases hstep
        rfl
      · rw [namedStep, if_neg hc] at hstep
        exact absurd hstep (by simp)
    simp only [List.map_cons, List.nodup_cons] at hnd
    rcases List.mem_cons.mp hmem with heq | htail
    · obtain ⟨hk1, hk2⟩ : kv.1 = k ∧ kv.2 = v := by cases heq; exact ⟨rfl, rfl⟩
      rw [hk1, hk2] at hacc'
      rw [applyNamed_lookup_preserved md tail acc' res k (hk1 ▸ hnd.1) hrest,
        hacc']
      exact mapLookup_insert_self acc k v
    · exact ih acc' res hnd.2 hrest k v htail

theorem defaults_preserve_lookup (defs : List ArgDefinition) :
    ∀ (acc : List (Str × Str)) (k : Str) (v : Str),
    mapLookup acc k = some v →
    mapLookup (defs.foldl defaultStep acc) k = some v := by
  induction defs with
  | nil => intro acc k v h; exact h
  | cons d tail ih =>
    intro acc k v h
    rw [List.foldl_cons]
    refine ih _ k v ?_
    cases hd : d.default with
    | none =>
      simp only [defaultStep, hd]
      exact h
    | some dv =>
      simp only [defaultStep, hd]
      by_cases hc : mapContains acc d.name = true
      · rw [if_pos hc]; exact h
      · rw [if_neg hc]
        have hne : k ≠ d.name := by
          intro heq
          apply hc
          rw [← heq]
          simp only [mapContains, h, Option.isSome_some]
        rw [mapLookup_insert_ne acc d.name k dv hne]
        exact h

theorem namedStep_ok (md : CommandMetadata) (acc acc' : List (Str × Str))
    (kv : Str × Str) (h : namedStep md acc kv = Except.ok acc') :
    acc' = mapInsert acc kv.1 kv.2 := by
  by_cases hc : md.args.any (fun a => a.name = kv.1)
  · rw [namedStep, if_pos hc] at h
    cases h
    rfl
  · rw [namedStep, if_neg hc] at h
    exact Except.noConfusion h

theorem applyNamed_contains (md : CommandMetadata) (args : List (Str × Str)) :
    ∀ (acc res : List (Str × Str)),
    List.foldlM (namedStep md) acc args = Except.ok res →
    ∀ n, mapContains res n = true ↔
      mapContains acc n = true ∨ ∃ v, (n, v) ∈ args := by
  induction args with
  | nil =>
    intro acc res h n
    simp only [List.foldlM_nil] at h
    cases h
    simp
  | cons kv tail ih =>
    intro acc res h n
    obtain ⟨acc', hstep, hrest⟩ := applyNamed_ok_of_mem_step _ kv tail acc res h
    rw [namedStep_ok md acc acc' kv hstep] at hrest
    rw [ih _ res hrest n, mapContains_insert]
    constructor
    · rintro ((rfl | hacc) | ⟨v, hv⟩)
      · exact Or.inr ⟨kv.2, by simp⟩
      · exact Or.inl hacc
      · exact Or.inr ⟨v, List.mem_cons_of_mem _ hv⟩
    · rintro (hacc | ⟨v, hv⟩)
      · exact Or.inl (Or.inr hacc)
      · rcases List.mem_cons.mp hv with heq | htail
        · exact Or.inl (Or.inl (by cases heq; rfl))
        · exact Or.inr ⟨v, htail⟩

theorem applyNamed_total (md : CommandMetadata) (args : List (Str × Str)) :
    ∀ acc, (∀ kv ∈ args, md.args.any (fun a => a.name = kv.1) = true) →
    ∃ res, List.foldlM (namedStep md) acc args = Except.ok res := by
  induction args with
  | nil => exact fun acc _ => ⟨acc, rfl⟩
  | cons kv tail ih =>
    intro acc hk
    have hc := hk kv (List.mem_cons_self _ _)
    obtain ⟨res, hres⟩ :=
      ih (mapInsert acc kv.1 kv.2) (fun kv' h' => hk kv' (List.mem_cons_of_mem _ h'))
    refine ⟨res, ?_⟩
    rw [List.foldlM_cons]
    have hstep : namedStep md acc kv = Except.ok (mapInsert acc kv.1 kv.2) := by
      rw [namedStep, if_pos hc]
    rw [hstep]
    exact hres

theorem defaults_contains (defs : List ArgDefinition) :
    ∀ (acc : List (Str × Str)) (n : Str),
    mapContains (defs.foldl defaultStep acc) n = true ↔
      mapContains acc n = true ∨
        ∃ d ∈ defs, d.name = n ∧ d.default.isSome = true := by
  induction defs with
  | nil => simp
  | cons d tail ih =>
    intro acc n
    rw [List.foldl_cons, ih (defaultStep acc d) n]
    cases hd : d.default with
    | none =>
      simp only [defaultStep, hd]
      constructor
      · rintro (hacc | ⟨d', hd', hn, hs⟩)
        · exact Or.inl hacc
        · exact Or.inr ⟨d', List.mem_cons_of_mem _ hd', hn, hs⟩
      · rintro (hacc | ⟨d', hd', hn, hs⟩)
        · exact Or.inl hacc
        · rcases List.mem_cons.mp hd' with heq | htail
          · rw [heq, hd] at hs
            exact absurd hs (by simp)
          · exact Or.inr ⟨d', htail, hn, hs⟩
    | some dv =>
      simp only [defaultStep, hd]
      by_cases hc : mapContains acc d.name = true
      · rw [if_pos hc]
        constructor
        · rintro (hacc | ⟨d', hd', hn, hs⟩)
          · exact Or.inl hacc
          · exact Or.inr ⟨d', List.mem_cons_of_mem _ hd', hn, hs⟩
        · rintro (hacc | ⟨d', hd', hn, hs⟩)
          · exact Or.inl hacc
          · rcases List.mem_cons.mp hd' with heq | htail
            · rw [heq] at hn
              exact Or.inl (hn ▸ hc)
            · exact Or.inr ⟨d', htail, hn, hs⟩
      · rw [if_neg hc, mapContains_insert]
        constructor
        · rintro ((rfl | hacc) | ⟨d', hd', hn, hs⟩)
          · exact Or.inr ⟨d, List.mem_cons_self _ _, rfl, by rw [hd]; rfl⟩
          · exact Or.inl hacc
          · exact Or.inr ⟨d', List.mem_cons_of_mem _ hd', hn, hs⟩
        · rintro (hacc | ⟨d', hd', hn, hs⟩)
          · exact Or.inl (Or.inr hacc)
          · rcases List.mem_cons.mp hd' with heq | htail
            · exact Or.inl (Or.inl (by rw [heq] at hn; exact hn.symm))
            · exact Or.inr ⟨d', htail, hn, hs⟩

theorem mapPositional_contains_aux (defs : List ArgDefinition) (raws : List Str) :
    ∀ (j : Nat) (acc : List (Str × Str)) (n : Str),
    mapContains ((List.enumFrom j raws).foldl
      (fun result p =>
        match defs.get? p.1 with
        | some argDef => mapInsert result argDef.name p.2
        | none => result) acc) n = true ↔
      mapContains acc n = true ∨
        n ∈ ((defs.drop j).take raws.length).map (·.name) := by
  induction raws with
  | nil =>
    intro j acc n
    simp [List.enumFrom]
  | cons raw tail ih =>
    intro j acc n
    have hcons : List.enumFrom j (raw :: tail) = (j, raw) :: List.enumFrom (j + 1) tail := rfl
    rw [hcons, List.foldl_cons]
    cases hj : defs.get? j with
    | some d =>
      have hlt : j < defs.length := (List.get?_eq_some.mp hj).1
      have hdj : defs.drop j = d :: defs.drop (j + 1) := by
        rw [List.drop_eq_getElem_cons hlt]
        have : defs[j] = d := by
          have := (List.get?_eq_some.mp hj).2
          simpa [List.get_eq_getElem] using this
        rw [this]
      simp only [hj]
      rw [ih (j + 1) (mapInsert acc d.name raw) n, mapContains_insert, hdj]
      simp only [List.length_cons, List.take_succ_cons, List.map_cons,
        List.mem_cons]
      constructor
      · rintro ((rfl | hacc) | htail)
        · exact Or.inr (Or.inl rfl)
        · exact Or.inl hacc
        · exact Or.inr (Or.inr htail)
      · rintro (hacc | (heq | htail))
        · exact Or.inl (Or.inr hacc)
        · exact Or.inl (Or.inl heq)
        · exact Or.inr htail
    | none =>
      have hlen : defs.length ≤ j := List.get?_eq_none.mp hj
      have h1 : defs.drop j = [] := List.drop_eq_nil_of_le hlen
      have h2 : defs.drop (j + 1) = [] :=
        List.drop_eq_nil_of_le (Nat.le_succ_of_le hlen)
      simp only [hj]
      rw [ih (j + 1) acc n, h1, h2]
      simp

theorem mapPositional_contains (raws : List Str) (defs : List ArgDefinition)
    (n : Str) :
    mapContains (mapPositional raws defs) n = true ↔
      n ∈ (defs.take raws.length).map (·.name) := by
  have h := mapPositional_contains_aux defs raws 0 [] n
  rw [List.drop_zero] at h
  rw [mapPositional, List.enum]
  rw [h]
  simp [mapContains, mapLookup]

/-- C5 counterexample: a required parameter (`file`) receives no value
from positional mapping, named arguments, or a default, yet
`map_arguments` does not fail with `MissingRequiredArgument` — the
unknown named argument `bogus` makes it fail with `UnknownArgument`
first (step 2 precedes the required check of step 4); for the same
reason "every required parameter covered" does not imply success. -/
theorem missing_required_counterexample :
    ArgumentMapper.mapArguments
      ⟨"test".toList, [("bogus".toList, "x".toList)], []⟩
      ⟨"test".toList, [], "testing".toList, ⟨false, false, false⟩,
        [⟨"file".toList, ArgType.string, true, [], none⟩], false, none, []⟩ =
      Except.error (MapError.unknownArgument "bogus".toList "test".toList) := rfl

/-- C5 (amended): provided every named-argument key of the invocation is
a declared parameter name (otherwise `UnknownArgument` fires first) and
declared parameter names are distinct, `map_arguments` fails with a
`MissingRequiredArgument` error naming the offending parameter and the
command iff some parameter marked required receives no value from
positional mapping, named arguments, or a declared default; when every
required parameter is covered, the call returns the mapped argument map
successfully. -/
theorem missing_required_spec (inv : CommandInvocation) (md : CommandMetadata)
    (hkeys : ∀ kv ∈ inv.args, md.args.any (fun a => a.name = kv.1) = true)
    (hnodup : (md.args.map (·.name)).Nodup) :
    ((∃ p, ArgumentMapper.mapArguments inv md =
        Except.error (MapError.missingRequired p md.name)) ↔
      ∃ a ∈ md.args, a.required = true ∧
        a.name ∉ (md.args.take inv.raw_args.length).map (·.name) ∧
        (¬ ∃ v, (a.name, v) ∈ inv.args) ∧ a.default = none) ∧
    ((¬ ∃ a ∈ md.args, a.required = true ∧
        a.name ∉ (md.args.take inv.raw_args.length).map (·.name) ∧
        (¬ ∃ v, (a.name, v) ∈ inv.args) ∧ a.default = none) →
      ∃ res, ArgumentMapper.mapArguments inv md = Except.ok res) := by
  obtain ⟨r1, hr1⟩ :=
    applyNamed_total md inv.args (mapPositional inv.raw_args md.args) hkeys
  have hcov : ∀ a ∈ md.args,
      (mapContains (md.args.foldl defaultStep r1) a.name = true ↔
        (a.name ∈ (md.args.take inv.raw_args.length).map (·.name) ∨
          (∃ v, (a.name, v) ∈ inv.args) ∨ a.default.isSome = true)) := by
    intro a ha
    rw [defaults_contains md.args r1 a.name,
      applyNamed_contains md inv.args _ r1 hr1 a.name,
      mapPositional_contains inv.raw_args md.args a.name]
    constructor
    · rintro ((hpos | hnamed) | ⟨d, hd, hdn, hs⟩)
      · exact Or.inl hpos
      · exact Or.inr (Or.inl hnamed)
      · have : d = a := List.inj_on_of_nodup_map hnodup hd ha hdn
        exact Or.inr (Or.inr (this ▸ hs))
    · rintro (hpos | hnamed | hs)
      · exact Or.inl (Or.inl hpos)
      · exact Or.inl (Or.inr hnamed)
      · exact Or.inr ⟨a, ha, rfl, hs⟩
  have huncov : ∀ a ∈ md.args,
      ((a.required && !(mapContains (md.args.foldl defaultStep r1) a.name)) = true ↔
        (a.required = true ∧
          a.name ∉ (md.args.take inv.raw_args.length).map (·.name) ∧
          (¬ ∃ v, (a.name, v) ∈ inv.args) ∧ a.default = none)) := by
    intro a ha
    rw [Bool.and_eq_true, Bool.not_eq_true']
    constructor
    · rintro ⟨hreq, hcnt⟩
      refine ⟨hreq, ?_, ?_, ?_⟩
      · intro hpos
        rw [(hcov a ha).mpr (Or.inl hpos)] at hcnt
        exact Bool.noConfusion hcnt
      · rintro hnamed
        rw [(hcov a ha).mpr (Or.inr (Or.inl hnamed))] at hcnt
        exact Bool.noConfusion hcnt
      · cases hdef : a.default with
        | none => rfl
        | some d =>
          rw [(hcov a ha).mpr (Or.inr (Or.inr (by rw [hdef]; rfl)))] at hcnt
          exact Bool.noConfusion hcnt
    · rintro ⟨hreq, hpos, hnamed, hdef⟩
      refine ⟨hreq, ?_⟩
      cases hcnt : mapContains (md.args.foldl defaultStep r1) a.name with
      | false => rfl
      | true =>
        rcases (hcov a ha).mp hcnt with h | h | h
        · exact absurd h hpos
        · exact absurd h hnamed
        · rw [hdef] at h
          exact absurd h (by simp)
  have hform : ArgumentMapper.mapArguments inv md =
      match md.args.find?
        (fun a => a.required && !(mapContains (md.args.foldl defaultStep r1) a.name)) with
      | some argDef => Except.error (MapError.missingRequired argDef.name md.name)
      | none => Except.ok (md.args.foldl defaultStep r1) := by
    simp only [ArgumentMapper.mapArguments]
    rw [hr1]
  constructor
  · constructor
    · rintro ⟨p, herr⟩
      rw [hform] at herr
      cases hfind : md.args.find?
          (fun a => a.required && !(mapContains (md.args.foldl defaultStep r1) a.name)) with
      | none =>
        rw [hfind] at herr
        exact Except.noConfusion herr
      | some a =>
        have ha := List.mem_of_find?_eq_some hfind
        have hp := List.find?_some hfind
        exact ⟨a, ha, (huncov a ha).mp hp⟩
    · rintro ⟨a, ha, hconds⟩
      have hsome : (md.args.find?
          (fun a => a.required && !(mapContains (md.args.foldl defaultStep r1) a.name))).isSome := by
        rw [List.find?_isSome]
        exact ⟨a, ha, (huncov a ha).mpr hconds⟩
      cases hfind : md.args.find?
          (fun a => a.required && !(mapContains (md.args.foldl defaultStep r1) a.name)) with
      | none =>
        rw [hfind] at hsome
        exact absurd hsome (by simp)
      | some a' =>
        refine ⟨a'.name, ?_⟩
        rw [hform, hfind]
  · intro hnone
    cases hfind : md.args.find?
        (fun a => a.required && !(mapContains (md.args.foldl defaultStep r1) a.name)) with
    | some a =>
      have ha := List.mem_of_find?_eq_some hfind
      have hp := List.find?_some hfind
      exact absurd ⟨a, ha, (huncov a ha).mp hp⟩ hnone
    | none =>
      refine ⟨md.args.foldl defaultStep r1, ?_⟩
      rw [hform, hfind]

/-- C5 witness: with a required parameter `file`, no supplied value and
no default, the call fails with `MissingRequiredArgument` naming `file`
and the command. -/
theorem missing_required_spec_witness :
    ∃ p, ArgumentMapper.mapArguments ⟨"test".toList, [], []⟩
      ⟨"test".toList, [], "testing".toList, ⟨false, false, false⟩,
        [⟨"file".toList, ArgType.string, true, [], none⟩], false, none, []⟩ =
      Except.error (MapError.missingRequired p "test".toList) :=
  (missing_required_spec ⟨"test".toList, [], []⟩
    ⟨"test".toList, [], "testing".toList, ⟨false, false, false⟩,
      [⟨"file".toList, ArgType.string, true, [], none⟩], false, none, []⟩
    (fun kv hkv => absurd hkv (List.not_mem_nil kv))
    (by simp)).1.mpr
    ⟨⟨"file".toList, ArgType.string, true, [], none⟩,
      List.mem_cons_self _ _, rfl, by simp,
      fun ⟨v, hv⟩ => absurd hv (List.not_mem_nil _), rfl⟩

/-- C4: whenever `map_arguments` succeeds and every named-argument key is
distinct (they come from a `HashMap`), each named argument's value is
the final value of its parameter — even when a positional token was
already mapped to that parameter, and independently of the relative
order of named and positional tokens in the original command string
(the mapped invocation retains no such order, and named application
always follows positional mapping). -/
theorem named_overrides_positional (inv : CommandInvocation)
    (md : CommandMetadata) (res : List (Str × Str))
    (hnd : (inv.args.map Prod.fst).Nodup)
    (h : mapArguments inv md = Except.ok res) :
    ∀ k v, (k, v) ∈ inv.args → mapLookup res k = some v := by
  intro k v hmem
  simp only [mapArguments] at h
  cases hf : inv.args.foldlM (namedStep md) (mapPositional inv.raw_args md.args) with
  | error e =>
    rw [hf] at h
    exact Except.noConfusion h
  | ok r1 =>
    rw [hf] at h
    dsimp only at h
    cases hfind : md.args.find?
        (fun a => a.required && !(mapContains (md.args.foldl defaultStep r1) a.name)) with
    | some a =>
      rw [hfind] at h
      exact Except.noConfusion h
    | none =>
      rw [hfind] at h
      injection h with h2
      rw [← h2]
      exact defaults_preserve_lookup md.args r1 k v
        (applyNamed_lookup_named md inv.args _ r1 hnd hf k v hmem)

/-- C4 witness: in `/test src/main.rs format=json` against parameters
`file` (required) and `format` (default `standard`), the named
`format=json` overrides the positional default path. -/
theorem named_overrides_positional_witness :
    mapLookup [("format".toList, "json".toList),
      ("file".toList, "src/main.rs".toList)] "format".toList =
      some "json".toList :=
  named_overrides_positional
    ⟨"test".toList, [("format".toList, "json".toList)], ["src/main.rs".toList]⟩
    ⟨"test".toList, [], "testing".toList, ⟨false, false, false⟩,
      [⟨"file".toList, ArgType.string, true, [], none⟩,
       ⟨"format".toList, ArgType.string, false, [], some "standard".toList⟩],
      false, none, []⟩
    [("format".toList, "json".toList), ("file".toList, "src/main.rs".toList)]
    (by decide) rfl "format".toList "json".toList (by decide)

theorem reload_keys (cmds : List UserCommand) :
    ∀ (acc : List (Str × UserCommand)) (n : Str),
    (n ∈ mapKeys (cmds.foldl
        (fun map cmd => mapInsert map cmd.metadata.name cmd) acc) ↔
      n ∈ mapKeys acc ∨ n ∈ cmds.map (fun c => c.metadata.name)) := by
  induction cmds with
  | nil =>
    intro acc n
    simp
  | cons c tail ih =>
    intro acc n
    rw [List.foldl_cons, ih, mem_mapKeys_insert]
    simp only [List.map_cons, List.mem_cons]
    constructor
    · rintro ((heq | hacc) | htail)
      · exact Or.inr (Or.inl heq)
      · exact Or.inl hacc
      · exact Or.inr (Or.inr htail)
    · rintro (hacc | (heq | htail))
      · exact Or.inl (Or.inr hacc)
      · exact Or.inl (Or.inl heq)
      · exact Or.inr htail

theorem loadAll_names (parseCmd : Str → Except Str ParsedCommand)
    (dir : List FsEntry) :
    ∀ acc : List UserCommand,
    ((dir.foldl
        (fun commands entry =>
          if entry.ext ≠ some "md".toList then commands
          else if !entry.isFile then commands
          else
            match parseCmd entry.content with
            | .ok parsed => commands ++ [⟨parsed.metadata, parsed.template⟩]
            | .error _ => commands)
        acc).map (fun c => c.metadata.name) =
      acc.map (fun c => c.metadata.name) ++
        dir.filterMap (fun e =>
          if e.ext = some "md".toList ∧ e.isFile = true then
            match parseCmd e.content with
            | .ok parsed => some parsed.metadata.name
            | .error _ => none
          else none)) := by
  induction dir with
  | nil =>
    intro acc
    simp
  | cons e tail ih =>
    intro acc
    rw [List.foldl_cons, List.filterMap_cons]
    by_cases h1 : e.ext = some "md".toList
    · by_cases h2 : e.isFile = true
      · rw [if_neg (by simpa using h1), if_neg (by simp [h2]),
          if_pos ⟨h1, h2⟩]
        cases hp : parseCmd e.content with
        | ok parsed =>
          dsimp only
          rw [ih (acc ++ [UserCommand.mk parsed.metadata parsed.template])]
          simp
        | error err =>
          dsimp only
          exact ih acc
      · rw [if_neg (by simpa using h1),
          if_pos (by simp [Bool.eq_false_iff.mpr h2]),
          if_neg (by rintro ⟨-, hh⟩; exact h2 hh)]
        exact ih acc
    · rw [if_pos (by simpa using h1), if_neg (by rintro ⟨hh, -⟩; exact h1 hh)]
      exact ih acc

/-- C1: after `CommandRegistry::reload()` completes, the set of names in
the registry map equals exactly the set of names declared by the
directory's `.md` file entries whose parse (including validation)
succeeds — independently of the registry's previous contents (the map
is cleared first).  A file whose parse fails contributes nothing and
does not abort the rebuild: `reload` is total over every directory
state and every parser, so the other valid commands survive. -/
theorem reload_names_spec (old : List (Str × UserCommand))
    (parseCmd : Str → Except Str ParsedCommand) (dir : List FsEntry)
    (name : Str) :
    (name ∈ mapKeys (CommandRegistry.reload old parseCmd dir) ↔
      name ∈ (UserCommandLoader.loadAll parseCmd dir).map
        (fun c => c.metadata.name)) ∧
    ((UserCommandLoader.loadAll parseCmd dir).map (fun c => c.metadata.name) =
      dir.filterMap (fun e =>
        if e.ext = some "md".toList ∧ e.isFile = true then
          match parseCmd e.content with
          | .ok parsed => some parsed.metadata.name
          | .error _ => none
        else none)) := by
  constructor
  · rw [CommandRegistry.reload,
      reload_keys (UserCommandLoader.loadAll parseCmd dir) [] name]
    simp [mapKeys]
  · rw [UserCommandLoader.loadAll, loadAll_names parseCmd dir []]
    simp

/-- C1 witness: in a directory with one valid `.md` file (declaring
`good`), one `.md` file that fails to parse, and one valid-content
non-`.md` file, the reloaded registry's name set is exactly `{good}`,
whatever the previous registry contents were. -/
theorem reload_names_spec_witness :
    ("good".toList ∈ mapKeys (CommandRegistry.reload
      [("stale".toList,
        ⟨⟨"stale".toList, [], [], ⟨false, false, false⟩, [], false, none, []⟩, []⟩)]
      (fun content =>
        if content = "ok".toList then
          Except.ok ⟨⟨"good".toList, "d".toList, "c".toList,
            ⟨false, false, false⟩, [], false, none, []⟩, []⟩
        else Except.error "parse failure".toList)
      [⟨some "md".toList, true, "ok".toList⟩,
       ⟨some "md".toList, true, "broken".toList⟩,
       ⟨some "txt".toList, true, "ok".toList⟩])) ∧
    ¬ ("stale".toList ∈ mapKeys (CommandRegistry.reload
      [("stale".toList,
        ⟨⟨"stale".toList, [], [], ⟨false, false, false⟩, [], false, none, []⟩, []⟩)]
      (fun content =>
        if content = "ok".toList then
          Except.ok ⟨⟨"good".toList, "d".toList, "c".toList,
            ⟨false, false, false⟩, [], false, none, []⟩, []⟩
        else Except.error "parse failure".toList)
      [⟨some "md".toList, true, "ok".toList⟩,
       ⟨some "md".toList, true, "broken".toList⟩,
       ⟨some "txt".toList, true, "ok".toList⟩])) := by
  constructor
  · refine (reload_names_spec _ _ _ _).1.mpr ?_
    simp [UserCommandLoader.loadAll]
  · intro hmem
    have h := (reload_names_spec
      [("stale".toList,
        ⟨⟨"stale".toList, [], [], ⟨false, false, false⟩, [], false, none, []⟩, []⟩)]
      (fun content =>
        if content = "ok".toList then
          Except.ok ⟨⟨"good".toList, "d".toList, "c".toList,
            ⟨false, false, false⟩, [], false, none, []⟩, []⟩
        else Except.error "parse failure".toList)
      [⟨some "md".toList, true, "ok".toList⟩,
       ⟨some "md".toList, true, "broken".toList⟩,
       ⟨some "txt".toList, true, "ok".toList⟩]
      "stale".toList).1.mp hmem
    revert h
    simp [UserCommandLoader.loadAll]

theorem mem_insertByCmp {α : Type} (c : α → α → Ordering) (x : α)
    (l : List α) (y : α) :
    y ∈ AgentRouter.insertByCmp c x l ↔ y = x ∨ y ∈ l := by
  induction l with
  | nil => simp [AgentRouter.insertByCmp]
  | cons z zs ih =>
    rw [AgentRouter.insertByCmp]
    by_cases hc : c x z = Ordering.lt
    · rw [if_pos hc]
      simp only [List.mem_cons]
    · rw [if_neg hc]
      simp only [List.mem_cons, ih]
      tauto

theorem insertByCmp_ne_nil {α : Type} (c : α → α → Ordering) (x : α)
    (l : List α) : AgentRouter.insertByCmp c x l ≠ [] := by
  cases l with
  | nil => simp [AgentRouter.insertByCmp]
  | cons z zs =>
    rw [AgentRouter.insertByCmp]
    by_cases hc : c x z = Ordering.lt
    · rw [if_pos hc]; simp
    · rw [if_neg hc]; simp

theorem scoreCmp_lt_iff (x z : Agent × F64) (hx : x.2.isFin) (hz : z.2.isFin) :
    AgentRouter.scoreCmp x z = Ordering.lt ↔ z.2.qval < x.2.qval := by
  obtain ⟨p, hp⟩ : ∃ p, x.2 = F64.fin p := by
    cases hxx : x.2 with
    | nan => rw [hxx] at hx; exact hx.elim
    | fin p => exact ⟨p, rfl⟩
  obtain ⟨q, hq⟩ : ∃ q, z.2 = F64.fin q := by
    cases hzz : z.2 with
    | nan => rw [hzz] at hz; exact hz.elim
    | fin q => exact ⟨q, rfl⟩
  rw [AgentRouter.scoreCmp, hp, hq, F64.partialCmp]
  simp only [Option.getD_some, F64.qval]
  constructor
  · intro h
    by_cases h1 : q < p
    · exact h1
    · rw [if_neg h1] at h
      by_cases h2 : q = p
      · rw [if_pos h2] at h; exact Ordering.noConfusion h
      · rw [if_neg h2] at h; exact Ordering.noConfusion h
  · intro h
    rw [if_pos h]

theorem insertByCmp_head_max (x : Agent × F64) (l : List (Agent × F64))
    (hx : x.2.isFin) (hl : ∀ y ∈ l, y.2.isFin)
    (hmax : ∀ y ∈ l, ∀ h, l.head? = some h → y.2.qval ≤ h.2.qval) :
    ∀ y ∈ AgentRouter.insertByCmp AgentRouter.scoreCmp x l,
      ∀ h, (AgentRouter.insertByCmp AgentRouter.scoreCmp x l).head? = some h →
        y.2.qval ≤ h.2.qval := by
  cases l with
  | nil =>
    intro y hy h hh
    simp only [AgentRouter.insertByCmp] at hy hh
    simp only [List.mem_singleton] at hy
    simp only [List.head?_cons, Option.some.injEq] at hh
    rw [hy, ← hh]
  | cons z zs =>
    intro y hy h hh
    rw [AgentRouter.insertByCmp] at hy hh
    by_cases hc : AgentRouter.scoreCmp x z = Ordering.lt
    · rw [if_pos hc] at hy hh
      simp only [List.head?_cons, Option.some.injEq] at hh
      have hzx : z.2.qval < x.2.qval :=
        (scoreCmp_lt_iff x z hx (hl z (List.mem_cons_self z zs))).mp hc
      rcases List.mem_cons.mp hy with rfl | hy'
      · rw [← hh]
      · rw [← hh]
        have hyz : y.2.qval ≤ z.2.qval :=
          hmax y hy' z (List.head?_cons)
        exact le_trans hyz (le_of_lt hzx)
    · rw [if_neg hc] at hy hh
      simp only [List.head?_cons, Option.some.injEq] at hh
      rcases List.mem_cons.mp hy with rfl | hy'
      · rw [← hh]
      · rcases (mem_insertByCmp AgentRouter.scoreCmp x zs y).mp hy' with heq | hyz
        · rw [← hh, heq]
          by_contra hlt
          exact hc ((scoreCmp_lt_iff x z hx (hl z (List.mem_cons_self z zs))).mpr
            (lt_of_not_le hlt))
        · rw [← hh]
          exact hmax y (List.mem_cons_of_mem z hyz) z (List.head?_cons)

theorem sortByCmp_fold_spec (l : List (Agent × F64)) :
    ∀ acc : List (Agent × F64),
    (∀ y ∈ l, y.2.isFin) → (∀ y ∈ acc, y.2.isFin) →
    (∀ y ∈ acc, ∀ h, acc.head? = some h → y.2.qval ≤ h.2.qval) →
    (∀ y, (y ∈ l.foldl (fun a x => AgentRouter.insertByCmp AgentRouter.scoreCmp x a) acc ↔
        y ∈ l ∨ y ∈ acc)) ∧
    (l.foldl (fun a x => AgentRouter.insertByCmp AgentRouter.scoreCmp x a) acc = [] ↔
      l = [] ∧ acc = []) ∧
    (∀ y ∈ l.foldl (fun a x => AgentRouter.insertByCmp AgentRouter.scoreCmp x a) acc,
      ∀ h, (l.foldl (fun a x => AgentRouter.insertByCmp AgentRouter.scoreCmp x a) acc).head? = some h →
        y.2.qval ≤ h.2.qval) := by
  induction l with
  | nil =>
    intro acc _ hacc hmax
    refine ⟨fun y => ?_, by simp, hmax⟩
    simp
  | cons x xs ih =>
    intro acc hl hacc hmax
    have hxfin : x.2.isFin := hl x (List.mem_cons_self x xs)
    have hlx : ∀ y ∈ xs, y.2.isFin := fun y hy => hl y (List.mem_cons_of_mem x hy)
    have hacc' : ∀ y ∈ AgentRouter.insertByCmp AgentRouter.scoreCmp x acc, y.2.isFin := by
      intro y hy
      rcases (mem_insertByCmp _ x acc y).mp hy with rfl | hy'
      · exact hxfin
      · exact hacc y hy'
    have hmax' := insertByCmp_head_max x acc hxfin hacc hmax
    obtain ⟨hmem, hemp, hm⟩ := ih (AgentRouter.insertByCmp AgentRouter.scoreCmp x acc)
      hlx hacc' hmax'
    rw [List.foldl_cons]
    refine ⟨fun y => ?_, ?_, hm⟩
    · rw [hmem y, mem_insertByCmp]
      simp only [List.mem_cons]
      tauto
    · rw [hemp]
      constructor
      · rintro ⟨-, hins⟩
        exact absurd hins (insertByCmp_ne_nil _ x acc)
      · rintro ⟨hxs, -⟩
        exact List.noConfusion hxs

/-- C6: `select_agent` returns an agent with maximal `can_handle` score
whenever that maximal score is `>=` the activation threshold, and `None`
when no agents are registered or the best available score is strictly
below the threshold; `set_activation_threshold` clamps its input, so any
real threshold set through it lies in `[0, 1]`.  (Scores are assumed
non-NaN — they carry the `ActivationScore` invariant; the NaN pathology
is claim C10's subject.) -/
theorem select_agent_spec (r : AgentRouter) (context : TaskContext) (thr : ℚ)
    (hthr : r.activation_threshold = F64.fin thr)
    (hfin : ∀ a ∈ r.agents, ((a.canHandle context).val).isFin) :
    (∀ agent, AgentRouter.selectAgent r context = some agent →
      agent ∈ r.agents ∧
      thr ≤ ((agent.canHandle context).val).qval ∧
      ∀ b ∈ r.agents,
        ((b.canHandle context).val).qval ≤ ((agent.canHandle context).val).qval) ∧
    (AgentRouter.selectAgent r context = none ↔
      (r.agents = [] ∨ ∀ b ∈ r.agents, ((b.canHandle context).val).qval < thr)) ∧
    (∀ x : ℚ, ∃ t : ℚ,
      (AgentRouter.setActivationThreshold r (F64.fin x)).activation_threshold =
        F64.fin t ∧ 0 ≤ t ∧ t ≤ 1) := by
  have hsfin : ∀ y ∈ r.agents.map (fun a => (a, (a.canHandle context).val)),
      (Prod.snd y).isFin := by
    intro y hy
    obtain ⟨a, ha, rfl⟩ := List.mem_map.mp hy
    exact hfin a ha
  obtain ⟨hmem, hemp, hm⟩ := sortByCmp_fold_spec
    (r.agents.map (fun a => (a, (a.canHandle context).val))) [] hsfin
    (by intro y hy; exact absurd hy (List.not_mem_nil y))
    (by intro y hy; exact absurd hy (List.not_mem_nil y))
  have hsort : AgentRouter.sortByCmp AgentRouter.scoreCmp
      (r.agents.map (fun a => (a, (a.canHandle context).val))) =
      (r.agents.map (fun a => (a, (a.canHandle context).val))).foldl
        (fun a x => AgentRouter.insertByCmp AgentRouter.scoreCmp x a) [] := rfl
  have hheadmem : ∀ p, (AgentRouter.sortByCmp AgentRouter.scoreCmp
      (r.agents.map (fun a => (a, (a.canHandle context).val)))).head? = some p →
      p ∈ r.agents.map (fun a => (a, (a.canHandle context).val)) := by
    intro p hp
    rw [hsort] at hp
    have h1 := List.mem_of_mem_head? hp
    rcases (hmem p).mp h1 with h2 | h2
    · exact h2
    · exact absurd h2 (List.not_mem_nil p)
  have hge_iff : ∀ q : ℚ,
      F64.ge (F64.fin q) r.activation_threshold = true ↔ thr ≤ q := by
    intro q
    rw [hthr, F64.ge]
    exact decide_eq_true_iff
  have hunfold : AgentRouter.selectAgent r context =
      match (AgentRouter.sortByCmp AgentRouter.scoreCmp
          (r.agents.map (fun a => (a, (a.canHandle context).val)))).head? with
      | some p => if F64.ge p.2 r.activation_threshold then some p.1 else none
      | none => none := rfl
  refine ⟨?_, ?_, ?_⟩
  · intro agent hsel
    rw [hunfold] at hsel
    cases hh : (AgentRouter.sortByCmp AgentRouter.scoreCmp
        (r.agents.map (fun a => (a, (a.canHandle context).val)))).head? with
    | none =>
      rw [hh] at hsel
      exact Option.noConfusion hsel
    | some p =>
      rw [hh] at hsel
      dsimp only at hsel
      by_cases hge : F64.ge p.2 r.activation_threshold = true
      · rw [if_pos hge] at hsel
        injection hsel with hagent
        obtain ⟨a, ha, hpa⟩ := List.mem_map.mp (hheadmem p hh)
        have hfa := hfin a ha
        obtain ⟨q, hq⟩ : ∃ q, (a.canHandle context).val = F64.fin q := by
          cases hv : (a.canHandle context).val with
          | nan => rw [hv] at hfa; exact hfa.elim
          | fin q => exact ⟨q, rfl⟩
        have hp2 : p.2 = F64.fin q := by rw [← hpa, hq]
        have hp1 : p.1 = a := by rw [← hpa]
        have hthrq : thr ≤ q := by
          rw [hp2] at hge
          exact (hge_iff q).mp hge
        have hqval : ((agent.canHandle context).val).qval = q := by
          rw [← hagent, hp1, hq]
          rfl
        refine ⟨by rw [← hagent, hp1]; exact ha, by rw [hqval]; exact hthrq, ?_⟩
        intro b hb
        have hbmem : (b, (b.canHandle context).val) ∈
            r.agents.map (fun a => (a, (a.canHandle context).val)) :=
          List.mem_map.mpr ⟨b, hb, rfl⟩
        have hbfold := (hmem (b, (b.canHandle context).val)).mpr (Or.inl hbmem)
        have hble := hm (b, (b.canHandle context).val) hbfold p
          (by rw [← hsort]; exact hh)
        rw [hp2] at hble
        rw [hqval]
        exact hble
      · rw [if_neg hge] at hsel
        exact Option.noConfusion hsel
  · constructor
    · intro hsel
      rw [hunfold] at hsel
      cases hh : (AgentRouter.sortByCmp AgentRouter.scoreCmp
          (r.agents.map (fun a => (a, (a.canHandle context).val)))).head? with
      | none =>
        rw [List.head?_eq_none_iff, hsort, hemp] at hh
        exact Or.inl (List.map_eq_nil_iff.mp hh.1)
      | some p =>
        rw [hh] at hsel
        dsimp only at hsel
        by_cases hge : F64.ge p.2 r.activation_threshold = true
        · rw [if_pos hge] at hsel
          exact Option.noConfusion hsel
        · obtain ⟨a, ha, hpa⟩ := List.mem_map.mp (hheadmem p hh)
          have hfa := hfin a ha
          obtain ⟨q, hq⟩ : ∃ q, (a.canHandle context).val = F64.fin q := by
            cases hv : (a.canHandle context).val with
            | nan => rw [hv] at hfa; exact hfa.elim
            | fin q => exact ⟨q, rfl⟩
          have hp2 : p.2 = F64.fin q := by rw [← hpa, hq]
          have hqthr : q < thr := by
            rw [hp2] at hge
            exact lt_of_not_le (fun hc => hge ((hge_iff q).mpr hc))
          refine Or.inr (fun b hb => ?_)
          have hbmem : (b, (b.canHandle context).val) ∈
              r.agents.map (fun a => (a, (a.canHandle context).val)) :=
            List.mem_map.mpr ⟨b, hb, rfl⟩
          have hbfold := (hmem (b, (b.canHandle context).val)).mpr (Or.inl hbmem)
          have hble := hm (b, (b.canHandle context).val) hbfold p
            (by rw [← hsort]; exact hh)
          rw [hp2] at hble
          exact lt_of_le_of_lt hble hqthr
    · intro hcond
      rw [hunfold]
      cases hh : (AgentRouter.sortByCmp AgentRouter.scoreCmp
          (r.agents.map (fun a => (a, (a.canHandle context).val)))).head? with
      | none => rfl
      | some p =>
        dsimp only
        obtain ⟨a, ha, hpa⟩ := List.mem_map.mp (hheadmem p hh)
        have hfa := hfin a ha
        obtain ⟨q, hq⟩ : ∃ q, (a.canHandle context).val = F64.fin q := by
          cases hv : (a.canHandle context).val with
          | nan => rw [hv] at hfa; exact hfa.elim
          | fin q => exact ⟨q, rfl⟩
        have hp2 : p.2 = F64.fin q := by rw [← hpa, hq]
        rcases hcond with hnil | hlt
        · rw [hnil] at ha
          exact absurd ha (List.not_mem_nil a)
        · have hq1 : q < thr := by
            have := hlt a ha
            rw [hq] at this
            exact this
          rw [hp2, if_neg (fun hc => absurd ((hge_iff q).mp hc) (not_le.mpr hq1))]
  · intro x
    refine ⟨if x < 0 then 0 else if x > 1 then 1 else x, rfl, ?_, ?_⟩ <;>
      split_ifs <;> linarith

/-- C6 witness: a concrete router (one agent scoring `4/5`, threshold
`3/5`) satisfies the hypotheses; setting the threshold to `7/5` clamps
it into `[0, 1]`. -/
theorem select_agent_spec_witness :
    ∃ t : ℚ,
      (AgentRouter.setActivationThreshold
        ⟨[⟨"security".toList, fun _ => ⟨F64.fin (4 / 5)⟩⟩], F64.fin (3 / 5)⟩
        (F64.fin (7 / 5))).activation_threshold = F64.fin t ∧
      0 ≤ t ∧ t ≤ 1 :=
  (select_agent_spec
    ⟨[⟨"security".toList, fun _ => ⟨F64.fin (4 / 5)⟩⟩], F64.fin (3 / 5)⟩
    ⟨[], none, none, ExecutionMode.interactive, []⟩ (3 / 5) rfl
    (by
      intro a ha
      rcases List.mem_singleton.mp ha with rfl
      exact trivial)).2.2 (7 / 5)

/-- C2 counterexample: five `Create` events on five distinct `.md` paths
spaced 50ms apart — all inside one 300ms debounce window of each other —
do not coalesce into one reload.  With the 50ms sweep tick, each path's
entry ages out in a different sweep, so the loop issues five
`registry.reload()` calls, not exactly one. -/
theorem debounce_coalescing_counterexample :
    (watcherRun
      [WInput.tick 0,
       WInput.event ⟨WEventKind.create, [⟨"a".toList, some "md".toList⟩]⟩ 0,
       WInput.tick 50,
       WInput.event ⟨WEventKind.create, [⟨"b".toList, some "md".toList⟩]⟩ 50,
       WInput.tick 100,
       WInput.event ⟨WEventKind.create, [⟨"c".toList, some "md".toList⟩]⟩ 100,
       WInput.tick 150,
       WInput.event ⟨WEventKind.create, [⟨"d".toList, some "md".toList⟩]⟩ 150,
       WInput.tick 200,
       WInput.event ⟨WEventKind.create, [⟨"e".toList, some "md".toList⟩]⟩ 200,
       WInput.tick 250, WInput.tick 300, WInput.tick 350, WInput.tick 400,
       WInput.tick 450, WInput.tick 500]).reloads = 5 ∧ (5 : Nat) ≠ 1 :=
  ⟨rfl, by decide⟩

theorem pendFold_stamps (P : Nat → Prop) (paths : List WPath) :
    ∀ (m : List (WPath × Nat)) (now : Nat),
    (∀ pt ∈ m, P pt.2) → P now →
    ∀ pt ∈ paths.foldl
      (fun m path => if isCommandFile path then pendInsert m path now else m) m,
      P pt.2 := by
  induction paths with
  | nil =>
    intro m now hm _ pt hpt
    exact hm pt hpt
  | cons p ps ih =>
    intro m now hm hnow pt hpt
    rw [List.foldl_cons] at hpt
    by_cases hc : isCommandFile p = true
    · rw [if_pos hc] at hpt
      refine ih (pendInsert m p now) now ?_ hnow pt hpt
      intro qt hqt
      rcases List.mem_cons.mp hqt with heq | h
      · rw [heq]
        exact hnow
      · exact hm qt (List.mem_of_mem_filter h)
    · rw [if_neg hc] at hpt
      exact ih m now hm hnow pt hpt

theorem pendFold_ne_nil (paths : List WPath) :
    ∀ (m : List (WPath × Nat)) (now : Nat),
    (m ≠ [] ∨ paths.any isCommandFile = true) →
    paths.foldl
      (fun m path => if isCommandFile path then pendInsert m path now else m) m ≠
      [] := by
  induction paths with
  | nil =>
    intro m now h
    rcases h with h | h
    · exact h
    · exact absurd h (by simp)
  | cons p ps ih =>
    intro m now h
    rw [List.foldl_cons]
    by_cases hc : isCommandFile p = true
    · rw [if_pos hc]
      exact ih (pendInsert m p now) now (Or.inl (by simp [pendInsert]))
    · rw [if_neg hc]
      refine ih m now ?_
      rcases h with h | h
      · exact Or.inl h
      · rw [List.any_cons, Bool.or_eq_true] at h
        rcases h with h1 | h2
        · exact absurd h1 hc
        · exact Or.inr h2

theorem eventsRun_spec (T : Nat) (evs : List (WEvent × Nat)) :
    ∀ s : WatcherState,
    (∀ p ∈ evs, isRelevantEvent p.1 = true ∧ p.2 + debounceMs ≤ T) →
    (∀ pt ∈ s.pending, pt.2 + debounceMs ≤ T) →
    ((evs.map (fun p => WInput.event p.1 p.2)).foldl watcherStep s).reloads =
        s.reloads ∧
    (∀ pt ∈ ((evs.map (fun p => WInput.event p.1 p.2)).foldl watcherStep s).pending,
      pt.2 + debounceMs ≤ T) ∧
    ((s.pending ≠ [] ∨ evs ≠ []) →
      ((evs.map (fun p => WInput.event p.1 p.2)).foldl watcherStep s).pending ≠ []) := by
  induction evs with
  | nil =>
    intro s _ hp
    refine ⟨rfl, hp, fun h => ?_⟩
    rcases h with h | h
    · exact h
    · exact absurd rfl h
  | cons ev rest ih =>
    intro s hevs hp
    have hrel := (hevs ev (List.mem_cons_self ev rest)).1
    have hT := (hevs ev (List.mem_cons_self ev rest)).2
    have hstep : watcherStep s (WInput.event ev.1 ev.2) = stepEvent s ev.1 ev.2 := by
      rw [watcherStep, if_pos hrel]
    have hstamps : ∀ pt ∈ (stepEvent s ev.1 ev.2).pending,
        pt.2 + debounceMs ≤ T := by
      intro pt hpt
      exact pendFold_stamps (fun t => t + debounceMs ≤ T) ev.1.paths s.pending
        ev.2 hp hT pt hpt
    obtain ⟨ih1, ih2, ih3⟩ := ih (stepEvent s ev.1 ev.2)
      (fun p hp' => hevs p (List.mem_cons_of_mem ev hp')) hstamps
    rw [List.map_cons, List.foldl_cons, hstep]
    refine ⟨by rw [ih1]; rfl, ih2, fun _ => ?_⟩
    refine ih3 (Or.inl ?_)
    have hany : ev.1.paths.any isCommandFile = true := by
      rw [isRelevantEvent, Bool.and_eq_true] at hrel
      exact hrel.2
    exact pendFold_ne_nil ev.1.paths s.pending ev.2 (Or.inr hany)

/-- C2 (amended): each sweep tick issues at most one `registry.reload()`
call, and all pending entries that age out in the *same* sweep coalesce
into that single reload: any nonempty batch of relevant events, on any
number of paths, followed by one sweep tick after the debounce window
has elapsed for every event, yields exactly one reload in total.  But
entries aging out in different sweeps each trigger their own reload, so
events spread across several expiring sweeps — e.g. 5 creates spaced
50ms apart against the 50ms tick — produce one reload per such sweep (5
in that example), not one in total. -/
theorem debounce_per_sweep_spec (s : WatcherState) (now T : Nat)
    (evs : List (WEvent × Nat)) (hne : evs ≠ [])
    (hevs : ∀ p ∈ evs, isRelevantEvent p.1 = true ∧ p.2 + debounceMs ≤ T) :
    (stepTick s now).reloads ≤ s.reloads + 1 ∧
    (watcherRun ((evs.map (fun p => WInput.event p.1 p.2)) ++
      [WInput.tick T])).reloads = 1 := by
  constructor
  · have hform : (stepTick s now).reloads = s.reloads +
        (if s.pending.any (fun pt => decide (debounceMs ≤ now - pt.2)) then 1
         else 0) := rfl
    rw [hform]
    split_ifs <;> omega
  · rw [watcherRun, List.foldl_append]
    obtain ⟨h1, h2, h3⟩ := eventsRun_spec T evs ⟨[], 0⟩ hevs
      (fun pt hpt => absurd hpt (List.not_mem_nil pt))
    have hne1 : ((evs.map (fun p => WInput.event p.1 p.2)).foldl watcherStep
        ⟨[], 0⟩).pending ≠ [] := h3 (Or.inr hne)
    rw [List.foldl_cons, List.foldl_nil]
    obtain ⟨pt, hpt⟩ := List.exists_mem_of_ne_nil _ hne1
    have hany : (((evs.map (fun p => WInput.event p.1 p.2)).foldl watcherStep
        ⟨[], 0⟩).pending).any (fun pt => decide (debounceMs ≤ T - pt.2)) = true :=
      List.any_eq_true.mpr ⟨pt, hpt, decide_eq_true
        (Nat.le_sub_of_add_le (by rw [Nat.add_comm]; exact h2 pt hpt))⟩
    show (stepTick _ T).reloads = 1
    have hform : (stepTick ((evs.map (fun p => WInput.event p.1 p.2)).foldl
        watcherStep ⟨[], 0⟩) T).reloads =
        ((evs.map (fun p => WInput.event p.1 p.2)).foldl watcherStep
          ⟨[], 0⟩).reloads +
        (if ((evs.map (fun p => WInput.event p.1 p.2)).foldl watcherStep
            ⟨[], 0⟩).pending.any (fun pt => decide (debounceMs ≤ T - pt.2)) then 1
         else 0) := rfl
    rw [hform, h1]
    simp [hany]

/-- C2 witness: two creates on distinct `.md` paths at 0ms and 10ms
followed by a single sweep at 310ms (the window elapsed for both)
coalesce into exactly one reload. -/
theorem debounce_per_sweep_spec_witness :
    (stepTick ⟨[], 0⟩ 0).reloads ≤ 0 + 1 ∧
    (watcherRun (([((⟨WEventKind.create, [⟨"a".toList, some "md".toList⟩]⟩ : WEvent), 0),
        ((⟨WEventKind.create, [⟨"b".toList, some "md".toList⟩]⟩ : WEvent), 10)].map
          (fun p => WInput.event p.1 p.2)) ++ [WInput.tick 310])).reloads = 1 :=
  debounce_per_sweep_spec ⟨[], 0⟩ 0 310
    [((⟨WEventKind.create, [⟨"a".toList, some "md".toList⟩]⟩ : WEvent), 0),
     ((⟨WEventKind.create, [⟨"b".toList, some "md".toList⟩]⟩ : WEvent), 10)]
    (by decide) (by decide)

theorem findIdx_split_aux (t : Str) :
    ∀ i : Nat,
    (∀ j, t.findIdx? (fun c => c = '=') i = some j →
      i ≤ j ∧
      t.take (j - i) = t.takeWhile (fun c => c ≠ '=') ∧
      t.drop (j - i + 1) = (t.dropWhile (fun c => c ≠ '=')).drop 1 ∧
      '=' ∈ t) ∧
    (t.findIdx? (fun c => c = '=') i = none → '=' ∉ t) := by
  induction t with
  | nil =>
    intro i
    constructor
    · intro j hj
      exact Option.noConfusion hj
    · intro _
      exact List.not_mem_nil '='
  | cons c cs ih =>
    intro i
    by_cases hc : c = '='
    · constructor
      · intro j hj
        rw [List.findIdx?_cons, if_pos (by simp [hc])] at hj
        injection hj with hj
        refine ⟨le_of_eq hj, ?_, ?_, by rw [hc]; exact List.mem_cons_self _ _⟩
        · rw [← hj, Nat.sub_self, List.take_zero,
            List.takeWhile_cons_of_neg (by simp [hc])]
        · rw [← hj, Nat.sub_self, List.drop_one,
            List.dropWhile_cons_of_neg (by simp [hc])]
          rfl
      · intro hn
        rw [List.findIdx?_cons, if_pos (by simp [hc])] at hn
        exact Option.noConfusion hn
    · constructor
      · intro j hj
        rw [List.findIdx?_cons, if_neg (by simp [hc])] at hj
        obtain ⟨hij, htake, hdrop, hmem⟩ := (ih (i + 1)).1 j hj
        have hij' : i ≤ j := le_trans (Nat.le_succ i) hij
        have hsub : j - i = (j - (i + 1)) + 1 := by omega
        refine ⟨hij', ?_, ?_, List.mem_cons_of_mem c hmem⟩
        · rw [hsub, List.take_succ_cons,
            List.takeWhile_cons_of_pos (by simp [hc]), htake]
        · rw [hsub, List.drop_succ_cons,
            List.dropWhile_cons_of_pos (by simp [hc]), hdrop]
      · intro hn
        rw [List.findIdx?_cons, if_neg (by simp [hc])] at hn
        cases hn' : cs.findIdx? (fun c => c = '=') (i + 1) with
        | some j =>
          rw [hn'] at hn
          exact Option.noConfusion hn
        | none =>
          have := (ih (i + 1)).2 hn'
          intro hm
          rcases List.mem_cons.mp hm with heq | hmm
          · exact hc heq.symm
          · exact this hmm

theorem parseKeyValue_iff (t : Str) (k v : Str) :
    InvocationParser.parseKeyValue t = some (k, v) ↔
      ('=' ∈ t ∧ k = trimStr (t.takeWhile (fun c => c ≠ '=')) ∧
       v = trimStr ((t.dropWhile (fun c => c ≠ '=')).drop 1) ∧
       InvocationParser.isValidArgName k = true) := by
  rw [InvocationParser.parseKeyValue]
  cases hf : t.findIdx? (fun c => c = '=') with
  | none =>
    have hnm := (findIdx_split_aux t 0).2 hf
    constructor
    · intro h
      exact Option.noConfusion h
    · rintro ⟨hm, -⟩
      exact absurd hm hnm
  | some j =>
    obtain ⟨-, htake, hdrop, hmem⟩ := (findIdx_split_aux t 0).1 j hf
    rw [Nat.sub_zero] at htake hdrop
    dsimp only
    by_cases hcond :
        (!(trimStr (t.take j)).isEmpty &&
          InvocationParser.isValidArgName (trimStr (t.take j))) = true
    · rw [if_pos hcond]
      rw [Bool.and_eq_true] at hcond
      constructor
      · intro h
        injection h with h
        injection h with h1 h2
        refine ⟨hmem, by rw [← h1, htake], by rw [← h2, hdrop], ?_⟩
        rw [← h1]
        exact hcond.2
      · rintro ⟨-, hk, hv, -⟩
        rw [hk, hv, htake, hdrop]
    · rw [if_neg hcond]
      constructor
      · intro h
        exact Option.noConfusion h
      · rintro ⟨-, hk, -, hvalid⟩
        exfalso
        apply hcond
        rw [Bool.and_eq_true]
        have hkt : k = trimStr (t.take j) := by rw [hk, htake]
        refine ⟨?_, hkt ▸ hvalid⟩
        rw [← hkt]
        rw [InvocationParser.isValidArgName, Bool.and_eq_true] at hvalid
        exact hvalid.1

theorem collectArgs_aux (tokens : List Str) :
    ∀ acc : List (Str × Str) × List Str,
    (tokens.foldl
      (fun acc token =>
        match InvocationParser.parseKeyValue token with
        | some kv => (CodexModel.mapInsert acc.1 kv.1 kv.2, acc.2)
        | none => (acc.1, acc.2 ++ [token])) acc) =
    (tokens.foldl
      (fun m t =>
        match InvocationParser.parseKeyValue t with
        | some kv => CodexModel.mapInsert m kv.1 kv.2
        | none => m) acc.1,
     acc.2 ++ tokens.filter (fun t => (InvocationParser.parseKeyValue t).isNone)) := by
  induction tokens with
  | nil =>
    intro acc
    simp
  | cons t ts ih =>
    intro acc
    rw [List.foldl_cons, List.foldl_cons, List.filter_cons]
    cases hp : InvocationParser.parseKeyValue t with
    | some kv =>
      dsimp only
      rw [ih (CodexModel.mapInsert acc.1 kv.1 kv.2, acc.2)]
      simp
    | none =>
      dsimp only
      rw [ih (acc.1, acc.2 ++ [t])]
      simp

/-- C3 counterexample: in `/cmd a\=b` the only `=` of the input is
escaped, so by the claim the token contains no unescaped `=` and must be
appended to `raw_args`; the parser nevertheless produces the named
argument `a=b` (and an empty `raw_args`), because tokenization strips
escapes and quotes before `parse_key_value` inspects the token. -/
theorem named_arg_escaped_eq_counterexample :
    InvocationParser.parse "/cmd a\\=b".toList =
      Except.ok ⟨"cmd".toList, [("a".toList, "b".toList)], []⟩ := rfl

/-- C3 (amended): for every token after the command name — as produced
by tokenization, which resolves quotes and escapes first, so escaping or
quoting a `=` does not protect it — the token becomes a named argument
exactly when it contains a `=` whose left side, whitespace-trimmed, is a
nonempty valid identifier; the first `=` wins and the value is
everything after it, whitespace-trimmed, so values may contain further
`=`.  All other tokens are appended to `raw_args` in their original
order. -/
theorem parse_token_classification (input : Str) (inv : CommandInvocation)
    (h : InvocationParser.parse input = Except.ok inv) :
    (∃ tokens,
      InvocationParser.tokenize ((trimStr input).drop 1) =
        Except.ok (inv.command_name :: tokens) ∧
      inv.raw_args =
        tokens.filter (fun t => (InvocationParser.parseKeyValue t).isNone) ∧
      inv.args = tokens.foldl
        (fun m t =>
          match InvocationParser.parseKeyValue t with
          | some kv => CodexModel.mapInsert m kv.1 kv.2
          | none => m) []) ∧
    (∀ t k v, InvocationParser.parseKeyValue t = some (k, v) ↔
      ('=' ∈ t ∧ k = trimStr (t.takeWhile (fun c => c ≠ '=')) ∧
       v = trimStr ((t.dropWhile (fun c => c ≠ '=')).drop 1) ∧
       InvocationParser.isValidArgName k = true)) := by
  refine ⟨?_, parseKeyValue_iff⟩
  simp only [InvocationParser.parse] at h
  by_cases h1 : (trimStr input).head? = some '/'
  case neg =>
    rw [if_pos h1] at h
    exact Except.noConfusion h
  rw [if_neg (fun hh => hh h1)] at h
  by_cases h2 : (trimStr input).length = 1
  case pos =>
    rw [if_pos h2] at h
    exact Except.noConfusion h
  rw [if_neg h2] at h
  · cases htok : InvocationParser.tokenize ((trimStr input).drop 1) with
    | error e =>
      rw [htok] at h
      exact Except.noConfusion h
    | ok tokens =>
      rw [htok] at h
      cases tokens with
      | nil =>
        exact Except.noConfusion h
      | cons name rest =>
        dsimp only at h
        by_cases hv : InvocationParser.isValidCommandName name = true
        · rw [if_neg (by rw [hv]; exact fun hh => hh rfl)] at h
          injection h with h
          subst h
          refine ⟨rest, rfl, ?_, ?_⟩
          · show (InvocationParser.collectArgs rest).2 = _
            rw [InvocationParser.collectArgs, collectArgs_aux rest ([], [])]
            simp
          · show (InvocationParser.collectArgs rest).1 = _
            rw [InvocationParser.collectArgs, collectArgs_aux rest ([], [])]
        · rw [if_pos (by
            intro hcontra
            exact hv hcontra)] at h
          exact Except.noConfusion h

/-- C3 witness: `/review depth=deep src/` decomposes into the named
argument `depth=deep` and the raw positional `src/`. -/
theorem parse_token_classification_witness :
    ∃ tokens,
      InvocationParser.tokenize ((trimStr "/review depth=deep src/".toList).drop 1) =
        Except.ok ("review".toList :: tokens) ∧
      ["src/".toList] =
        tokens.filter (fun t => (InvocationParser.parseKeyValue t).isNone) ∧
      [("depth".toList, "deep".toList)] = tokens.foldl
        (fun m t =>
          match InvocationParser.parseKeyValue t with
          | some kv => CodexModel.mapInsert m kv.1 kv.2
          | none => m) [] :=
  (parse_token_classification "/review depth=deep src/".toList
    ⟨"review".toList, [("depth".toList, "deep".toList)], ["src/".toList]⟩
    rfl).1

/-- C8 witness: under a `NoAccess` policy a concrete `read_file` call is
denied, naming the path, with the filesystem unchanged. -/
theorem read_file_permission_spec_witness :
    AgentToolkit.readFile
      ⟨"agent".toList, ⟨FileAccessPolicy.noAccess, false, false, [], 5, false⟩,
        "/w".toList⟩
      "test.rs".toList [] =
      (Except.error (ToolError.permissionDeniedRead "test.rs".toList), []) :=
  (read_file_permission_spec
    ⟨FileAccessPolicy.noAccess, false, false, [], 5, false⟩ "test.rs".toList).2
    _ [] rfl rfl
